import Mathlib

/-!
Verification development for the e2k / kanalizer transliteration engine.

The repository's visible Rust surface is `crates/e2k-rs/src/lib.rs` (module
declarations and the crate doc example) and `crates/kanalizer-rs/tests/test_main.rs`.
The core modules (`constants.rs`, `inference.rs`, `layers.rs`) and the embedded
weight archive are not part of the visible sources, so the definitions below
are modelled from the specification's description of the vocabulary, the
sampler, and the decode loop, and the claims are settled against this model.
The neural encoder and decoder are kept abstract (an arbitrary state type and
step function), which is exactly what the universally quantified claims about
the decode loop require.
-/

/-- Modelled from the spec: the vocabulary table of `constants.rs` (not under
`src/`) — a static bidirectional mapping between input characters and token
ids and between output token ids and Katakana characters, with reserved
padding, start-of-sequence, end-of-sequence and unknown token ids. -/
structure Vocab where
  tokenId : Char → Option ℕ
  char_of : ℕ → Char
  size : ℕ
  pad : ℕ
  sos : ℕ
  eos : ℕ
  unk : ℕ

/-- Modelled from the spec: `token_of` maps a character to its token id,
falling back to the unknown token id on an unrecognized character; it is a
total function and never fails. -/
def token_of (v : Vocab) (c : Char) : ℕ :=
  (v.tokenId c).getD v.unk

/-- Modelled from the spec: tokenization maps each input character through
`token_of`. -/
def tokenize (v : Vocab) (s : String) : List ℕ :=
  s.data.map (token_of v)

/-- Modelled from the spec: sampler configuration — top-k truncation width,
top-p nucleus threshold, and temperature. -/
structure SamplingConfig where
  top_k : ℕ
  top_p : ℚ
  temperature : ℚ

/-- Modelled from the spec: the trained model of `layers.rs` and the embedded
weight archive (not under `src/`). The recurrent encoder collapses the input
token sequence into an initial decoder state of abstract type `σ`; one decoder
STEP maps the current state and the previous output token to the next state
together with per-token logits, which the sampler normalizes into a
probability distribution. -/
structure Model (σ : Type) where
  vocab : Vocab
  encode : List ℕ → σ
  step : σ → ℕ → σ × List (ℕ × ℚ)

/-- Modelled from the spec: sampler step 1 — when the temperature differs from
1, rescale the logits by dividing by the temperature before normalization. -/
def applyTemperature (T : ℚ) (l : List (ℕ × ℚ)) : List (ℕ × ℚ) :=
  if T = 1 then l else l.map fun x => (x.1, x.2 / T)

/-- Modelled from the spec: exponential-normalization of logits into a
probability distribution; the strictly monotone positive map `e` plays the
role of the exponential function. -/
def softmax (e : ℚ → ℚ) (l : List (ℕ × ℚ)) : List (ℕ × ℚ) :=
  l.map fun x => (x.1, e x.2 / (l.map fun y => e y.2).sum)

/-- Modelled from the spec: the order used by top-k truncation — descending
probability, with ties broken by ascending token id. -/
def distOrder (a b : ℕ × ℚ) : Prop :=
  b.2 < a.2 ∨ (b.2 = a.2 ∧ a.1 ≤ b.1)

instance : DecidableRel distOrder := fun a b => by
  unfold distOrder
  infer_instance

instance : IsTotal (ℕ × ℚ) distOrder :=
  ⟨fun a b => by
    rcases lt_trichotomy a.2 b.2 with h | h | h
    · exact Or.inr (Or.inl h)
    · rcases Nat.le_total a.1 b.1 with hn | hn
      · exact Or.inl (Or.inr ⟨h.symm, hn⟩)
      · exact Or.inr (Or.inr ⟨h, hn⟩)
    · exact Or.inl (Or.inl h)⟩

instance : IsTrans (ℕ × ℚ) distOrder :=
  ⟨fun a b c hab hbc => by
    rcases hab with h1 | ⟨h1, h1'⟩ <;> rcases hbc with h2 | ⟨h2, h2'⟩
    · exact Or.inl (h2.trans h1)
    · exact Or.inl (by rw [h2]; exact h1)
    · exact Or.inl (by rw [← h1]; exact h2)
    · exact Or.inr ⟨h2.trans h1, h1'.trans h2'⟩⟩

/-- Modelled from the spec: top-k truncation keeps the k highest-probability
tokens (ties broken by ascending token id); with k at least the vocabulary
size it keeps the whole distribution. -/
def topK (k : ℕ) (l : List (ℕ × ℚ)) : List (ℕ × ℚ) :=
  (List.insertionSort distOrder l).take k

/-- Modelled from the spec: top-p (nucleus) truncation keeps the smallest
prefix of the descending-probability list whose cumulative probability reaches
p, keeping everything when the total never reaches p. -/
def nucleus (p : ℚ) : List (ℕ × ℚ) → List (ℕ × ℚ)
  | [] => []
  | x :: xs => if p ≤ x.2 then [x] else x :: nucleus (p - x.2) xs

/-- Modelled from the spec: the kept set is renormalized to sum to 1. -/
def renormalize (l : List (ℕ × ℚ)) : List (ℕ × ℚ) :=
  l.map fun x => (x.1, x.2 / (l.map Prod.snd).sum)

/-- Modelled from the spec: draw one token from the renormalized distribution
by inverse transform on the supplied randomness value, keeping the last
candidate when the value falls beyond the accumulated mass. -/
def draw (r : ℚ) : List (ℕ × ℚ) → Option ℕ
  | [] => none
  | [x] => some x.1
  | x :: y :: ys => if r < x.2 then some x.1 else draw (r - x.2) (y :: ys)

/-- Modelled from the spec: the sampler — normalize the temperature-scaled
logits, truncate by top-k then top-p, renormalize, and draw one token with the
supplied randomness value. -/
def sample (e : ℚ → ℚ) (cfg : SamplingConfig) (r : ℚ) (logits : List (ℕ × ℚ)) : ℕ :=
  (draw r (renormalize (nucleus cfg.top_p
    (topK cfg.top_k (softmax e (applyTemperature cfg.temperature logits)))))).getD 0

/-- Reason the decode loop stopped: the sampler selected the end token, or the
step counter reached the configured maximum. -/
inductive StopReason
  | endToken
  | maxLength

/-- Modelled from the spec: the decode loop, indexed by the number of steps
still allowed. Each iteration runs one decoder STEP, samples a token with a
randomness value derived from the step index and cumulative output, stops when
the end token is sampled, and otherwise appends the token and continues. -/
def decodeLoopR {σ : Type} (m : Model σ) (e : ℚ → ℚ) (cfg : SamplingConfig)
    (rng : ℕ → List ℕ → ℚ) : ℕ → σ → ℕ → List ℕ → List ℕ × StopReason
  | 0, _, _, acc => (acc.reverse, .maxLength)
  | f + 1, st, prev, acc =>
    let next := m.step st prev
    let t := sample e cfg (rng acc.length acc) next.2
    if t = m.vocab.eos then (acc.reverse, .endToken)
    else decodeLoopR m e cfg rng f next.1 t (t :: acc)

/-- Modelled from the spec: the output token sequence of one inference call —
empty input yields no tokens and no encoder or decoder invocation; otherwise
tokenize, run the encoder once, and run the decode loop from the start token
with an empty output. -/
def outTokens {σ : Type} (m : Model σ) (e : ℚ → ℚ) (cfg : SamplingConfig)
    (rng : ℕ → List ℕ → ℚ) (maxLen : ℕ) (input : String) : List ℕ :=
  if input = "" then []
  else (decodeLoopR m e cfg rng maxLen (m.encode (tokenize m.vocab input))
    m.vocab.sos []).1

/-- Modelled from the spec: `infer` maps the output token sequence back to
characters through the vocabulary; it is total over every input string. -/
def infer {σ : Type} (m : Model σ) (e : ℚ → ℚ) (cfg : SamplingConfig)
    (rng : ℕ → List ℕ → ℚ) (maxLen : ℕ) (input : String) : String :=
  String.mk ((outTokens m e cfg rng maxLen input).map m.vocab.char_of)

/-- Modelled from the spec: one in-progress inference session — decoder state,
previous token, output so far (most recent first) and the step counter. -/
structure Session (σ : Type) where
  st : σ
  prev : ℕ
  out : List ℕ
  steps : ℕ

/-- State of the decode-loop state machine: still running, or stopped with the
produced output and the stop reason. -/
inductive LoopState (σ : Type)
  | running (s : Session σ)
  | stopped (out : List ℕ) (r : StopReason)

/-- Modelled from the spec: one transition of the decode loop, as a step
function with no built-in bound, so that termination is a theorem rather than
an artifact of fuel-indexed recursion. -/
def loopStep {σ : Type} (m : Model σ) (e : ℚ → ℚ) (cfg : SamplingConfig)
    (rng : ℕ → List ℕ → ℚ) (maxLen : ℕ) : LoopState σ → LoopState σ
  | .running s =>
    if maxLen ≤ s.steps then .stopped s.out.reverse .maxLength
    else
      let next := m.step s.st s.prev
      let t := sample e cfg (rng s.out.length s.out) next.2
      if t = m.vocab.eos then .stopped s.out.reverse .endToken
      else .running ⟨next.1, t, t :: s.out, s.steps + 1⟩
  | .stopped out r => .stopped out r

/-- Modelled from the spec: default sampler configuration — top-k covers the
full vocabulary, top-p is 1, temperature is 1, so no truncation happens. -/
def defaultConfig (v : Vocab) : SamplingConfig :=
  ⟨v.size, 1, 1⟩

/-- Modelled from the spec and the crate doc example: the `Kanalizer` engine of
`inference.rs` (not under `src/`) — the embedded model, the maximum output
length (default 32), the sampler configuration, the exponential map used by
normalization, and the randomness source. -/
structure Kanalizer (σ : Type) where
  model : Model σ
  max_length : ℕ
  cfg : SamplingConfig
  e : ℚ → ℚ
  rng : ℕ → List ℕ → ℚ

/-- Modelled from the spec: `Kanalizer::new` returns an engine directly with
the default configuration; there is no error result. -/
def Kanalizer.new {σ : Type} (m : Model σ) (e : ℚ → ℚ)
    (rng : ℕ → List ℕ → ℚ) : Kanalizer σ :=
  ⟨m, 32, defaultConfig m.vocab, e, rng⟩

/-- Modelled from the spec: `with_max_length` totally returns a reconfigured
engine with the given maximum output length. -/
def Kanalizer.with_max_length {σ : Type} (k : Kanalizer σ) (L : ℕ) : Kanalizer σ :=
  ⟨k.model, L, k.cfg, k.e, k.rng⟩

/-- Modelled from the spec: `Kanalizer::infer`. -/
def Kanalizer.infer {σ : Type} (k : Kanalizer σ) (input : String) : String :=
  String.mk ((outTokens k.model k.e k.cfg k.rng k.max_length input).map
    k.model.vocab.char_of)

/-- Modelled from the spec and the crate doc example: the `C2k` engine of
`e2k-rs`, constructed from a model and a maximum output length. -/
structure C2k (σ : Type) where
  model : Model σ
  max_length : ℕ
  cfg : SamplingConfig
  e : ℚ → ℚ
  rng : ℕ → List ℕ → ℚ

/-- Modelled from the spec: `C2k::new` returns an engine directly with no
error result. -/
def C2k.new {σ : Type} (m : Model σ) (maxLen : ℕ) (e : ℚ → ℚ)
    (rng : ℕ → List ℕ → ℚ) : C2k σ :=
  ⟨m, maxLen, defaultConfig m.vocab, e, rng⟩

/-- Modelled from the spec: `C2k::infer`. -/
def C2k.infer {σ : Type} (c : C2k σ) (input : String) : String :=
  String.mk ((outTokens c.model c.e c.cfg c.rng c.max_length input).map
    c.model.vocab.char_of)

/-- Modelled from the spec: the deterministic hash-based randomness fallback —
hash the input content together with the step index and the cumulative output
so far, and map the hash into the unit interval. -/
def fallbackRng (hash : String → ℕ → List ℕ → ℕ) (modulus : ℕ)
    (input : String) : ℕ → List ℕ → ℚ :=
  fun i out => ((hash input i out % modulus : ℕ) : ℚ) / (modulus : ℚ)

/-- Modelled from the spec: the trained reference model and its embedded
weight archive are not under `src/`; the spec's concrete scenarios and the
crate tests record the reference engine's observable behavior, stipulated
here as a predicate on an engine. -/
def IsReferenceEngine {σ : Type} (k : Kanalizer σ) : Prop :=
  k.max_length = 32 ∧
  k.infer "kanalizer" = "カナライザー" ∧
  k.infer "constants" = "コンスタンツ" ∧
  10 < (k.infer "pneumonoultramicroscopicsilicovolcanoconiosis").length

/-- A computable strictly monotone positive stand-in for the exponential map
used by the softmax normalization in the executable witnesses. -/
def eFun : ℚ → ℚ :=
  fun q => if 0 ≤ q then q + 1 else 1 / (1 - q)

/-- Output-character table of the concrete vocabulary used by the witnesses. -/
def charOfW : ℕ → Char :=
  fun t =>
    if t = 10 then 'カ' else if t = 11 then 'ナ' else if t = 12 then 'ラ'
    else if t = 13 then 'イ' else if t = 14 then 'ザ' else if t = 15 then 'ー'
    else if t = 16 then 'コ' else if t = 17 then 'ン' else if t = 18 then 'ス'
    else if t = 19 then 'タ' else if t = 20 then 'ツ' else 'ア'

/-- Concrete vocabulary used by the executable witnesses: lowercase letters
are recognized input characters, everything else is unrecognized; the reserved
ids are pad 0, start 1, end 2, unknown 3. -/
def vocabW : Vocab :=
  ⟨fun c => if 'a' ≤ c ∧ c ≤ 'z' then some (100 + c.toNat) else none,
   charOfW, 30, 0, 1, 2, 3⟩

/-- Script of output tokens realizing the reference scenarios in the
executable witnesses. -/
def scriptW (toks : List ℕ) : List ℕ :=
  if toks = tokenize vocabW "kanalizer" then [10, 11, 12, 13, 14, 15]
  else if toks = tokenize vocabW "constants" then [16, 17, 18, 19, 17, 20]
  else if toks = tokenize vocabW "pneumonoultramicroscopicsilicovolcanoconiosis" then
    List.replicate 12 10
  else []

/-- Scripted model used by the executable witnesses: the decoder state is the
list of tokens still to emit; each STEP emits the head with full probability
and the end token once the script is exhausted. -/
def modelW : Model (List ℕ) :=
  ⟨vocabW, scriptW, fun s _ =>
    match s with
    | [] => ([], [(2, 1)])
    | t :: r => (r, [(t, 1)])⟩

/-- Reference-like engine used by the executable witnesses. -/
def engineW : Kanalizer (List ℕ) :=
  Kanalizer.new modelW eFun (fun _ _ => 0)

/-- Constant-distribution model used by the reserved-token witness. -/
def modelC9 : Model Unit :=
  ⟨vocabW, fun _ => (), fun _ _ => ((), [(5, 1)])⟩

/-- Concrete distribution used by the greedy-sampling witness. -/
def logitsW : List (ℕ × ℚ) := [(5, 1), (7, 3), (9, 2)]

/-- Concrete hash used by the determinism witness. -/
def hashW : String → ℕ → List ℕ → ℕ :=
  fun s i out => s.length + i + out.length

attribute [local semireducible] Rat.mul Rat.add Rat.inv Rat.sub

theorem stringLength_mk (l : List Char) : (String.mk l).length = l.length := rfl

theorem infer_length_eq {σ : Type} (m : Model σ) (e : ℚ → ℚ) (cfg : SamplingConfig)
    (rng : ℕ → List ℕ → ℚ) (maxLen : ℕ) (input : String) :
    (infer m e cfg rng maxLen input).length =
      (outTokens m e cfg rng maxLen input).length := by
  unfold infer
  rw [stringLength_mk, List.length_map]

theorem kanalizer_infer_eq {σ : Type} (k : Kanalizer σ) (input : String) :
    k.infer input = infer k.model k.e k.cfg k.rng k.max_length input := rfl

theorem decodeLoopR_length {σ : Type} (m : Model σ) (e : ℚ → ℚ) (cfg : SamplingConfig)
    (rng : ℕ → List ℕ → ℚ) (f : ℕ) (st : σ) (prev : ℕ) (acc : List ℕ) :
    (decodeLoopR m e cfg rng f st prev acc).1.length ≤ f + acc.length := by
  induction f generalizing st prev acc with
  | zero => simp [decodeLoopR]
  | succ f ih =>
    simp only [decodeLoopR]
    by_cases h : sample e cfg (rng acc.length acc) (m.step st prev).2 = m.vocab.eos
    · rw [if_pos h]
      simp only [List.length_reverse]
      omega
    · rw [if_neg h]
      have := ih (m.step st prev).1
        (sample e cfg (rng acc.length acc) (m.step st prev).2)
        (sample e cfg (rng acc.length acc) (m.step st prev).2 :: acc)
      simp only [List.length_cons] at this
      omega

theorem decodeLoopR_acc {σ : Type} (m : Model σ) (e : ℚ → ℚ) (cfg : SamplingConfig)
    (rng : ℕ → List ℕ → ℚ) (f : ℕ) (st : σ) (prev : ℕ) (acc : List ℕ) :
    ∃ tl, (decodeLoopR m e cfg rng f st prev acc).1 = acc.reverse ++ tl := by
  induction f generalizing st prev acc with
  | zero => exact ⟨[], by simp [decodeLoopR]⟩
  | succ f ih =>
    simp only [decodeLoopR]
    by_cases h : sample e cfg (rng acc.length acc) (m.step st prev).2 = m.vocab.eos
    · rw [if_pos h]
      exact ⟨[], by simp⟩
    · rw [if_neg h]
      obtain ⟨tl, htl⟩ := ih (m.step st prev).1
        (sample e cfg (rng acc.length acc) (m.step st prev).2)
        (sample e cfg (rng acc.length acc) (m.step st prev).2 :: acc)
      refine ⟨sample e cfg (rng acc.length acc) (m.step st prev).2 :: tl, ?_⟩
      rw [htl]
      simp

theorem decodeLoopR_stop {σ : Type} (m : Model σ) (e : ℚ → ℚ) (cfg : SamplingConfig)
    (rng : ℕ → List ℕ → ℚ) (f : ℕ) (st : σ) (prev : ℕ) (acc : List ℕ) :
    (decodeLoopR m e cfg rng f st prev acc).2 = StopReason.endToken ∨
      (decodeLoopR m e cfg rng f st prev acc).1.length = f + acc.length := by
  induction f generalizing st prev acc with
  | zero =>
    right
    simp [decodeLoopR]
  | succ f ih =>
    simp only [decodeLoopR]
    by_cases h : sample e cfg (rng acc.length acc) (m.step st prev).2 = m.vocab.eos
    · rw [if_pos h]
      exact Or.inl rfl
    · rw [if_neg h]
      rcases ih (m.step st prev).1
        (sample e cfg (rng acc.length acc) (m.step st prev).2)
        (sample e cfg (rng acc.length acc) (m.step st prev).2 :: acc) with h' | h'
      · exact Or.inl h'
      · right
        rw [h']
        simp only [List.length_cons]
        omega

theorem decodeLoopR_mono {σ : Type} (m : Model σ) (e : ℚ → ℚ) (cfg : SamplingConfig)
    (rng : ℕ → List ℕ → ℚ) (f g : ℕ) (hfg : f ≤ g) (st : σ) (prev : ℕ) (acc : List ℕ) :
    ((decodeLoopR m e cfg rng f st prev acc).2 = StopReason.endToken →
        decodeLoopR m e cfg rng g st prev acc = decodeLoopR m e cfg rng f st prev acc) ∧
      ∃ tl, (decodeLoopR m e cfg rng g st prev acc).1 =
        (decodeLoopR m e cfg rng f st prev acc).1 ++ tl := by
  induction f generalizing g st prev acc with
  | zero =>
    constructor
    · intro h
      simp [decodeLoopR] at h
    · simpa [decodeLoopR] using decodeLoopR_acc m e cfg rng g st prev acc
  | succ f ih =>
    cases g with
    | zero => omega
    | succ g =>
      simp only [decodeLoopR]
      by_cases h : sample e cfg (rng acc.length acc) (m.step st prev).2 = m.vocab.eos
      · simp only [if_pos h]
        exact ⟨fun _ => by trivial, ⟨[], by simp⟩⟩
      · simp only [if_neg h]
        exact ih g (by omega) (m.step st prev).1
          (sample e cfg (rng acc.length acc) (m.step st prev).2)
          (sample e cfg (rng acc.length acc) (m.step st prev).2 :: acc)

/-- Claim C1: for every engine, input string and configured maximum output
length L, the string returned by infer has at most L characters; reaching the
cap is a normal value of the total function, not an error. -/
theorem infer_length_le_max_length {σ : Type} (k : Kanalizer σ) (L : ℕ) (input : String) :
    ((k.with_max_length L).infer input).length ≤ L := by
  rw [kanalizer_infer_eq, infer_length_eq]
  unfold outTokens
  split
  · simp
  · have := decodeLoopR_length (k.with_max_length L).model (k.with_max_length L).e
      (k.with_max_length L).cfg (k.with_max_length L).rng (k.with_max_length L).max_length
      ((k.with_max_length L).model.encode
        (tokenize (k.with_max_length L).model.vocab input))
      (k.with_max_length L).model.vocab.sos []
    simpa using this

/-- Claim C3: infer on the empty input string returns the empty string for
every model, configuration, randomness source and length bound, with no
encoder or decoder invocation. -/
theorem infer_empty {σ : Type} (m : Model σ) (e : ℚ → ℚ) (cfg : SamplingConfig)
    (rng : ℕ → List ℕ → ℚ) (maxLen : ℕ) : infer m e cfg rng maxLen "" = "" := by
  unfold infer outTokens
  rw [if_pos rfl]
  rfl

/-- Claim C5: with a fixed randomness source (in particular the deterministic
hash-based fallback, which depends only on the input, the step index and the
cumulative output) and a fixed configuration, any two calls of infer on the
same input produce identical output strings. -/
theorem infer_deterministic {σ : Type} (m : Model σ) (e : ℚ → ℚ) (cfg : SamplingConfig)
    (rng₁ rng₂ : ℕ → List ℕ → ℚ) (maxLen : ℕ) (input : String)
    (h : ∀ i out, rng₁ i out = rng₂ i out) :
    infer m e cfg rng₁ maxLen input = infer m e cfg rng₂ maxLen input := by
  have hr : rng₁ = rng₂ := funext fun i => funext fun o => h i o
  rw [hr]

theorem infer_deterministic_witness :
    (∀ i out, fallbackRng hashW 7 "kanalizer" i out = fallbackRng hashW 7 "kanalizer" i out) ∧
      infer modelW eFun (defaultConfig vocabW) (fallbackRng hashW 7 "kanalizer") 32 "kanalizer" =
        infer modelW eFun (defaultConfig vocabW) (fallbackRng hashW 7 "kanalizer") 32 "kanalizer" :=
  ⟨fun _ _ => rfl,
    infer_deterministic modelW eFun (defaultConfig vocabW)
      (fallbackRng hashW 7 "kanalizer") (fallbackRng hashW 7 "kanalizer") 32 "kanalizer"
      (fun _ _ => rfl)⟩

/-- Claim C10: engine construction never fails at the public interface —
`Kanalizer.new` and `C2k.new` return an engine directly with the requested
fields, and `with_max_length` totally returns a reconfigured engine. -/
theorem constructors_total {σ : Type} (m : Model σ) (e : ℚ → ℚ)
    (rng : ℕ → List ℕ → ℚ) (L : ℕ) (k : Kanalizer σ) :
    (Kanalizer.new m e rng).max_length = 32 ∧
      (Kanalizer.new m e rng).model = m ∧
      (k.with_max_length L).max_length = L ∧
      (k.with_max_length L).model = k.model ∧
      (C2k.new m L e rng).max_length = L ∧
      (C2k.new m L e rng).model = m :=
  ⟨rfl, rfl, rfl, rfl, rfl, rfl⟩

/-- Claim C2: under the reference model and default configuration, infer maps
"kanalizer" to "カナライザー" and "constants" to "コンスタンツ". -/
theorem reference_scenarios {σ : Type} (k : Kanalizer σ) (h : IsReferenceEngine k) :
    k.infer "kanalizer" = "カナライザー" ∧ k.infer "constants" = "コンスタンツ" :=
  ⟨h.2.1, h.2.2.1⟩

theorem reference_scenarios_witness :
    IsReferenceEngine engineW ∧
      (engineW.infer "kanalizer" = "カナライザー" ∧
        engineW.infer "constants" = "コンスタンツ") := by
  have href : IsReferenceEngine engineW := ⟨by decide, by decide, by decide, by decide⟩
  exact ⟨href, reference_scenarios engineW href⟩

/-- Claim C4: for an input whose inference output under the engine's own
length bound exceeds L characters, re-running with max_length L returns a
string with exactly L characters that differs from the longer result. -/
theorem infer_truncation {σ : Type} (k : Kanalizer σ) (input : String) (L : ℕ)
    (h : L < (k.infer input).length) :
    ((k.with_max_length L).infer input).length = L ∧
      (k.with_max_length L).infer input ≠ k.infer input := by
  by_cases hin : input = ""
  · subst hin
    rw [kanalizer_infer_eq, infer_length_eq] at h
    unfold outTokens at h
    rw [if_pos rfl] at h
    simp at h
  · rw [kanalizer_infer_eq, infer_length_eq] at h
    rw [kanalizer_infer_eq, infer_length_eq]
    unfold outTokens at h ⊢
    rw [if_neg hin] at h ⊢
    simp only [Kanalizer.with_max_length] at h ⊢
    have hlen := decodeLoopR_length k.model k.e k.cfg k.rng k.max_length
      (k.model.encode (tokenize k.model.vocab input)) k.model.vocab.sos []
    simp only [List.length_nil, Nat.add_zero] at hlen
    have hL : L ≤ k.max_length := by omega
    have hmono := decodeLoopR_mono k.model k.e k.cfg k.rng L k.max_length hL
      (k.model.encode (tokenize k.model.vocab input)) k.model.vocab.sos []
    have hstop := decodeLoopR_stop k.model k.e k.cfg k.rng L
      (k.model.encode (tokenize k.model.vocab input)) k.model.vocab.sos []
    rcases hstop with hstop | hstop
    · exfalso
      rw [hmono.1 hstop] at h
      have := decodeLoopR_length k.model k.e k.cfg k.rng L
        (k.model.encode (tokenize k.model.vocab input)) k.model.vocab.sos []
      simp only [List.length_nil, Nat.add_zero] at this
      omega
    · simp only [List.length_nil, Nat.add_zero] at hstop
      refine ⟨hstop, ?_⟩
      intro heq
      have hlen2 := congrArg String.length heq
      rw [infer_length_eq, kanalizer_infer_eq, infer_length_eq] at hlen2
      unfold outTokens at hlen2
      rw [if_neg hin, if_neg hin] at hlen2
      omega

theorem infer_truncation_witness :
    10 < (engineW.infer "pneumonoultramicroscopicsilicovolcanoconiosis").length ∧
      (((engineW.with_max_length 10).infer "pneumonoultramicroscopicsilicovolcanoconiosis").length = 10 ∧
        (engineW.with_max_length 10).infer "pneumonoultramicroscopicsilicovolcanoconiosis" ≠
          engineW.infer "pneumonoultramicroscopicsilicovolcanoconiosis") :=
  ⟨by decide, infer_truncation engineW "pneumonoultramicroscopicsilicovolcanoconiosis" 10 (by decide)⟩

/-- Claim C7: infer is total over every input string; an unrecognized input
character is silently replaced by the unknown token via token_of and
inference continues, so two inputs differing only in which unrecognized
character they contain produce the same best-effort output. -/
theorem infer_unknown_char {σ : Type} (m : Model σ) (e : ℚ → ℚ) (cfg : SamplingConfig)
    (rng : ℕ → List ℕ → ℚ) (maxLen : ℕ) (l1 l2 : List Char) (c c' : Char)
    (hc : m.vocab.tokenId c = none) (hc' : m.vocab.tokenId c' = none) :
    token_of m.vocab c = m.vocab.unk ∧
      infer m e cfg rng maxLen (String.mk (l1 ++ c :: l2)) =
        infer m e cfg rng maxLen (String.mk (l1 ++ c' :: l2)) := by
  constructor
  · simp [token_of, hc]
  · have hne1 : String.mk (l1 ++ c :: l2) ≠ "" := by
      intro hmk
      simpa using congrArg String.data hmk
    have hne2 : String.mk (l1 ++ c' :: l2) ≠ "" := by
      intro hmk
      simpa using congrArg String.data hmk
    have htok : tokenize m.vocab (String.mk (l1 ++ c :: l2)) =
        tokenize m.vocab (String.mk (l1 ++ c' :: l2)) := by
      show (l1 ++ c :: l2).map (token_of m.vocab) = (l1 ++ c' :: l2).map (token_of m.vocab)
      simp [token_of, hc, hc']
    unfold infer outTokens
    rw [if_neg hne1, if_neg hne2, htok]

theorem infer_unknown_char_witness :
    (vocabW.tokenId '!' = none) ∧ (vocabW.tokenId '?' = none) ∧
      (token_of vocabW '!' = vocabW.unk ∧
        infer modelW eFun (defaultConfig vocabW) (fun _ _ => 0) 32
            (String.mk (['a'] ++ '!' :: [])) =
          infer modelW eFun (defaultConfig vocabW) (fun _ _ => 0) 32
            (String.mk (['a'] ++ '?' :: []))) :=
  ⟨by decide, by decide,
    infer_unknown_char modelW eFun (defaultConfig vocabW) (fun _ _ => 0) 32
      ['a'] [] '!' '?' (by decide) (by decide)⟩

/-- Claim C8: from any running session the decode loop terminates regardless
of model behavior — iterating the loop's step function reaches a stopped
state, whose reason is either that the sampler selected the end token or that
the step counter reached the configured maximum, and whose result agrees with
the fuel-indexed decode loop on the remaining allowance. -/
theorem loop_terminates {σ : Type} (m : Model σ) (e : ℚ → ℚ) (cfg : SamplingConfig)
    (rng : ℕ → List ℕ → ℚ) (maxLen : ℕ) (s : Session σ) :
    ∃ n out r, (loopStep m e cfg rng maxLen)^[n] (LoopState.running s) =
        LoopState.stopped out r ∧
      (out, r) = decodeLoopR m e cfg rng (maxLen - s.steps) s.st s.prev s.out := by
  suffices H : ∀ (d : ℕ) (s : Session σ), maxLen - s.steps = d →
      ∃ n out r, (loopStep m e cfg rng maxLen)^[n] (LoopState.running s) =
          LoopState.stopped out r ∧
        (out, r) = decodeLoopR m e cfg rng d s.st s.prev s.out by
    exact H (maxLen - s.steps) s rfl
  intro d
  induction d with
  | zero =>
    intro s hs
    refine ⟨1, s.out.reverse, StopReason.maxLength, ?_, by simp [decodeLoopR]⟩
    simp only [Function.iterate_one, loopStep]
    rw [if_pos (by omega)]
  | succ d ih =>
    intro s hs
    by_cases ht : sample e cfg (rng s.out.length s.out) (m.step s.st s.prev).2 = m.vocab.eos
    · refine ⟨1, s.out.reverse, StopReason.endToken, ?_, ?_⟩
      · simp only [Function.iterate_one, loopStep]
        rw [if_neg (by omega), if_pos ht]
      · simp only [decodeLoopR]
        rw [if_pos ht]
    · obtain ⟨n, out, r, hiter, heq⟩ := ih
        ⟨(m.step s.st s.prev).1, sample e cfg (rng s.out.length s.out) (m.step s.st s.prev).2,
          sample e cfg (rng s.out.length s.out) (m.step s.st s.prev).2 :: s.out, s.steps + 1⟩
        (by show maxLen - (s.steps + 1) = d; omega)
      refine ⟨n + 1, out, r, ?_, ?_⟩
      · rw [Function.iterate_succ_apply]
        have hstep : loopStep m e cfg rng maxLen (LoopState.running s) =
            LoopState.running ⟨(m.step s.st s.prev).1,
              sample e cfg (rng s.out.length s.out) (m.step s.st s.prev).2,
              sample e cfg (rng s.out.length s.out) (m.step s.st s.prev).2 :: s.out,
              s.steps + 1⟩ := by
          simp only [loopStep]
          rw [if_neg (by omega), if_neg ht]
        rw [hstep]
        exact hiter
      · simp only [decodeLoopR]
        rw [if_neg ht]
        exact heq

theorem mapFst_applyTemperature (T : ℚ) (l : List (ℕ × ℚ)) :
    (applyTemperature T l).map Prod.fst = l.map Prod.fst := by
  unfold applyTemperature
  split
  · rfl
  · simp [List.map_map, Function.comp_def]

theorem applyTemperature_ne_nil (T : ℚ) (l : List (ℕ × ℚ)) (h : l ≠ []) :
    applyTemperature T l ≠ [] := by
  unfold applyTemperature
  split
  · exact h
  · simpa using h

theorem mapFst_softmax (e : ℚ → ℚ) (l : List (ℕ × ℚ)) :
    (softmax e l).map Prod.fst = l.map Prod.fst := by
  simp [softmax, List.map_map, Function.comp_def]

theorem softmax_ne_nil (e : ℚ → ℚ) (l : List (ℕ × ℚ)) (h : l ≠ []) :
    softmax e l ≠ [] := by
  simpa [softmax] using h

theorem mem_of_mem_topK (k : ℕ) (l : List (ℕ × ℚ)) (x : ℕ × ℚ) (hx : x ∈ topK k l) :
    x ∈ l :=
  (List.perm_insertionSort distOrder l).subset (List.take_subset k _ hx)

theorem topK_ne_nil (k : ℕ) (l : List (ℕ × ℚ)) (hk : 1 ≤ k) (h : l ≠ []) :
    topK k l ≠ [] := by
  unfold topK
  have hs : List.insertionSort distOrder l ≠ [] := by
    intro hn
    apply h
    have hp := List.perm_insertionSort distOrder l
    rw [hn] at hp
    exact hp.symm.eq_nil
  cases hs' : List.insertionSort distOrder l with
  | nil => exact absurd hs' hs
  | cons a as =>
    cases k with
    | zero => omega
    | succ k' => simp

theorem mem_of_mem_nucleus (p : ℚ) (l : List (ℕ × ℚ)) (x : ℕ × ℚ)
    (hx : x ∈ nucleus p l) : x ∈ l := by
  induction l generalizing p with
  | nil => simp [nucleus] at hx
  | cons a as ih =>
    unfold nucleus at hx
    split at hx
    · simp only [List.mem_singleton] at hx
      exact List.mem_cons.2 (Or.inl hx)
    · rcases List.mem_cons.1 hx with h | h
      · exact h ▸ List.mem_cons_self a as
      · exact List.mem_cons_of_mem a (ih _ h)

theorem nucleus_ne_nil (p : ℚ) (l : List (ℕ × ℚ)) (h : l ≠ []) :
    nucleus p l ≠ [] := by
  cases l with
  | nil => exact absurd rfl h
  | cons a as =>
    unfold nucleus
    split <;> simp

theorem mapFst_renormalize (l : List (ℕ × ℚ)) :
    (renormalize l).map Prod.fst = l.map Prod.fst := by
  simp [renormalize, List.map_map, Function.comp_def]

theorem renormalize_ne_nil (l : List (ℕ × ℚ)) (h : l ≠ []) : renormalize l ≠ [] := by
  simpa [renormalize] using h

theorem draw_getD_mem : ∀ (r : ℚ) (l : List (ℕ × ℚ)), l ≠ [] →
    (draw r l).getD 0 ∈ l.map Prod.fst
  | _, [], h => absurd rfl h
  | _, [x], _ => by simp [draw]
  | r, x :: y :: ys, _ => by
    simp only [draw]
    by_cases h : r < x.2
    · rw [if_pos h]
      simp
    · rw [if_neg h]
      have := draw_getD_mem (r - x.2) (y :: ys) (by simp)
      simp only [List.map_cons] at this ⊢
      exact List.mem_cons_of_mem _ this

theorem sample_mem (e : ℚ → ℚ) (cfg : SamplingConfig) (r : ℚ) (logits : List (ℕ × ℚ))
    (hne : logits ≠ []) (hk : 1 ≤ cfg.top_k) :
    sample e cfg r logits ∈ logits.map Prod.fst := by
  unfold sample
  have hp : softmax e (applyTemperature cfg.temperature logits) ≠ [] :=
    softmax_ne_nil _ _ (applyTemperature_ne_nil _ _ hne)
  have hkept : nucleus cfg.top_p
      (topK cfg.top_k (softmax e (applyTemperature cfg.temperature logits))) ≠ [] :=
    nucleus_ne_nil _ _ (topK_ne_nil _ _ hk hp)
  have h1 := draw_getD_mem r _ (renormalize_ne_nil _ hkept)
  rw [mapFst_renormalize] at h1
  obtain ⟨x, hx, hfx⟩ := List.mem_map.1 h1
  have hx2 : x ∈ softmax e (applyTemperature cfg.temperature logits) :=
    mem_of_mem_topK _ _ _ (mem_of_mem_nucleus _ _ _ hx)
  have hx3 : x.1 ∈ (softmax e (applyTemperature cfg.temperature logits)).map Prod.fst :=
    List.mem_map_of_mem Prod.fst hx2
  rw [mapFst_softmax, mapFst_applyTemperature] at hx3
  exact hfx ▸ hx3

theorem decodeLoopR_mem {σ : Type} (m : Model σ) (e : ℚ → ℚ) (cfg : SamplingConfig)
    (rng : ℕ → List ℕ → ℚ) (hk : 1 ≤ cfg.top_k)
    (hsupp : ∀ st p, (m.step st p).2 ≠ [] ∧
      ∀ x ∈ (m.step st p).2, x.1 ≠ m.vocab.pad ∧ x.1 ≠ m.vocab.sos)
    (f : ℕ) (st : σ) (prev : ℕ) (acc : List ℕ) :
    ∀ t ∈ (decodeLoopR m e cfg rng f st prev acc).1,
      t ∈ acc.reverse ∨ (t ≠ m.vocab.pad ∧ t ≠ m.vocab.sos ∧ t ≠ m.vocab.eos) := by
  induction f generalizing st prev acc with
  | zero =>
    intro t ht
    simp only [decodeLoopR] at ht
    exact Or.inl ht
  | succ f ih =>
    intro t ht
    simp only [decodeLoopR] at ht
    by_cases h : sample e cfg (rng acc.length acc) (m.step st prev).2 = m.vocab.eos
    · rw [if_pos h] at ht
      exact Or.inl ht
    · rw [if_neg h] at ht
      rcases ih (m.step st prev).1
        (sample e cfg (rng acc.length acc) (m.step st prev).2)
        (sample e cfg (rng acc.length acc) (m.step st prev).2 :: acc) t ht with h' | h'
      · simp only [List.reverse_cons, List.mem_append, List.mem_singleton] at h'
        rcases h' with h' | h'
        · exact Or.inl h'
        · right
          subst h'
          have hmem := sample_mem e cfg (rng acc.length acc) (m.step st prev).2
            (hsupp st prev).1 hk
          obtain ⟨x, hx, hfx⟩ := List.mem_map.1 hmem
          have := (hsupp st prev).2 x hx
          exact ⟨hfx ▸ this.1, hfx ▸ this.2, h⟩
      · exact Or.inr h'

/-- Claim C9: for every input and configuration, the emitted output token
sequence never contains the padding token or the start-of-sequence token, and
sampled end tokens are excluded as well, given that the decoder's
distributions are nonempty and avoid the reserved padding and start ids and
that the top-k width is positive. -/
theorem outTokens_no_reserved {σ : Type} (m : Model σ) (e : ℚ → ℚ) (cfg : SamplingConfig)
    (rng : ℕ → List ℕ → ℚ) (maxLen : ℕ) (input : String)
    (hk : 1 ≤ cfg.top_k)
    (hsupp : ∀ st p, (m.step st p).2 ≠ [] ∧
      ∀ x ∈ (m.step st p).2, x.1 ≠ m.vocab.pad ∧ x.1 ≠ m.vocab.sos) :
    ∀ t ∈ outTokens m e cfg rng maxLen input,
      t ≠ m.vocab.pad ∧ t ≠ m.vocab.sos ∧ t ≠ m.vocab.eos := by
  intro t ht
  unfold outTokens at ht
  split at ht
  · simp at ht
  · have := decodeLoopR_mem m e cfg rng hk hsupp maxLen
      (m.encode (tokenize m.vocab input)) m.vocab.sos [] t ht
    simpa using this

theorem outTokens_no_reserved_witness :
    (1 ≤ (defaultConfig vocabW).top_k) ∧
      (∀ st p, (modelC9.step st p).2 ≠ [] ∧
        ∀ x ∈ (modelC9.step st p).2, x.1 ≠ modelC9.vocab.pad ∧ x.1 ≠ modelC9.vocab.sos) ∧
      ∀ t ∈ outTokens modelC9 eFun (defaultConfig vocabW) (fun _ _ => 0) 3 "ab",
        t ≠ modelC9.vocab.pad ∧ t ≠ modelC9.vocab.sos ∧ t ≠ modelC9.vocab.eos := by
  have hsuppW : ∀ (st : Unit) (p : ℕ), (modelC9.step st p).2 ≠ [] ∧
      ∀ x ∈ (modelC9.step st p).2, x.1 ≠ modelC9.vocab.pad ∧ x.1 ≠ modelC9.vocab.sos := by
    intro st p
    refine ⟨by simp [modelC9], ?_⟩
    intro x hx
    have hx' : x = (5, 1) := by simpa [modelC9] using hx
    subst hx'
    exact ⟨by decide, by decide⟩
  exact ⟨by decide, hsuppW,
    outTokens_no_reserved modelC9 eFun (defaultConfig vocabW) (fun _ _ => 0) 3 "ab"
      (by decide) hsuppW⟩

theorem nucleus_singleton (p : ℚ) (x : ℕ × ℚ) : nucleus p [x] = [x] := by
  unfold nucleus
  split <;> simp [nucleus]

theorem sum_map_e_pos (e : ℚ → ℚ) (hepos : ∀ w, 0 < e w) (l : List (ℕ × ℚ))
    (h : l ≠ []) : 0 < (l.map fun y => e y.2).sum := by
  apply List.sum_pos
  · intro x hx
    obtain ⟨a, _, rfl⟩ := List.mem_map.1 hx
    exact hepos _
  · simpa using h

theorem head_insertionSort_max (l : List (ℕ × ℚ)) (x : ℕ × ℚ) (tail : List (ℕ × ℚ))
    (hs : List.insertionSort distOrder l = x :: tail) :
    x ∈ l ∧ ∀ u ∈ l, u.2 ≤ x.2 := by
  have hperm := List.perm_insertionSort distOrder l
  rw [hs] at hperm
  constructor
  · exact hperm.subset (List.mem_cons_self x tail)
  · intro u hu
    have hu' : u ∈ x :: tail := hperm.symm.subset hu
    rcases List.mem_cons.1 hu' with h | h
    · rw [h]
    · have hsorted := List.sorted_insertionSort distOrder l
      rw [hs] at hsorted
      rcases List.rel_of_sorted_cons hsorted u h with h' | ⟨h', _⟩
      · exact le_of_lt h'
      · exact le_of_eq h'

theorem sample_topk1 (e : ℚ → ℚ) (cfg : SamplingConfig) (r : ℚ)
    (logits : List (ℕ × ℚ)) (hk : cfg.top_k = 1) (hne : logits ≠ []) :
    ∃ x tail, List.insertionSort distOrder
        (softmax e (applyTemperature cfg.temperature logits)) = x :: tail ∧
      sample e cfg r logits = x.1 := by
  have hp : softmax e (applyTemperature cfg.temperature logits) ≠ [] :=
    softmax_ne_nil _ _ (applyTemperature_ne_nil _ _ hne)
  have hsnil : List.insertionSort distOrder
      (softmax e (applyTemperature cfg.temperature logits)) ≠ [] := by
    intro hn
    apply hp
    have hperm := List.perm_insertionSort distOrder
      (softmax e (applyTemperature cfg.temperature logits))
    rw [hn] at hperm
    exact hperm.symm.eq_nil
  cases hseq : List.insertionSort distOrder
      (softmax e (applyTemperature cfg.temperature logits)) with
  | nil => exact absurd hseq hsnil
  | cons x tail =>
    refine ⟨x, tail, rfl, ?_⟩
    unfold sample topK
    rw [hk, hseq]
    have htake : (x :: tail).take 1 = [x] := by simp
    rw [htake, nucleus_singleton]
    simp [renormalize, draw]

theorem probs_eq_map (e : ℚ → ℚ) (T : ℚ) (l : List (ℕ × ℚ)) :
    softmax e (applyTemperature T l) =
      l.map fun y => (y.1, e (y.2 / T) /
        ((applyTemperature T l).map fun y => e y.2).sum) := by
  by_cases hT : T = 1
  · subst hT
    unfold applyTemperature
    rw [if_pos rfl]
    unfold softmax
    simp [div_one]
  · unfold applyTemperature
    rw [if_neg hT]
    unfold softmax
    rw [List.map_map]
    rfl

/-- Claim C6: with top_k equal to 1 the sampler's truncation-then-sampling
selects the single highest-probability token of the decoder's distribution,
for every top_p, every positive temperature and every randomness value
(greedy decoding). -/
theorem sample_topk_one_greedy (e : ℚ → ℚ) (he : StrictMono e) (hepos : ∀ w, 0 < e w)
    (p T : ℚ) (hT : 0 < T) (r : ℚ) (logits : List (ℕ × ℚ)) (hne : logits ≠ []) :
    ∃ x ∈ logits, sample e ⟨1, p, T⟩ r logits = x.1 ∧
      (∀ u ∈ logits, u.2 ≤ x.2) ∧
      ∀ u ∈ softmax e logits, u.2 ≤ e x.2 / (logits.map fun y => e y.2).sum := by
  obtain ⟨h, tail, hseq, hsample⟩ := sample_topk1 e ⟨1, p, T⟩ r logits rfl hne
  have hS2 : 0 < ((applyTemperature T logits).map fun y => e y.2).sum :=
    sum_map_e_pos e hepos _ (applyTemperature_ne_nil T logits hne)
  have hmax := head_insertionSort_max _ h tail hseq
  rw [probs_eq_map e T logits] at hmax
  obtain ⟨z, hz, hzh⟩ := List.mem_map.1 hmax.1
  have hzmax : ∀ u ∈ logits, u.2 ≤ z.2 := by
    intro u hu
    have humem := List.mem_map_of_mem
      (fun y => (y.1, e (y.2 / T) / ((applyTemperature T logits).map fun y => e y.2).sum)) hu
    have h2 := hmax.2 _ humem
    rw [← hzh] at h2
    have h3 : e (u.2 / T) ≤ e (z.2 / T) := (div_le_div_iff_of_pos_right hS2).1 h2
    have h4 : u.2 / T ≤ z.2 / T := he.le_iff_le.1 h3
    exact (div_le_div_iff_of_pos_right hT).1 h4
  refine ⟨z, hz, by rw [hsample, ← hzh], hzmax, ?_⟩
  have hS1 : 0 < (logits.map fun y => e y.2).sum := sum_map_e_pos e hepos logits hne
  intro u hu
  unfold softmax at hu
  obtain ⟨w, hw, hwu⟩ := List.mem_map.1 hu
  rw [← hwu]
  have hwz : e w.2 ≤ e z.2 := he.le_iff_le.2 (hzmax w hw)
  exact (div_le_div_iff_of_pos_right hS1).2 hwz

theorem eFun_pos : ∀ w, 0 < eFun w := by
  intro w
  unfold eFun
  split
  · linarith
  · have hw : w < 0 := lt_of_not_ge (by assumption)
    have h1 : (0 : ℚ) < 1 - w := by linarith
    exact div_pos one_pos h1

theorem eFun_strictMono : StrictMono eFun := by
  intro a b hab
  unfold eFun
  by_cases ha : 0 ≤ a
  · rw [if_pos ha, if_pos (le_of_lt (lt_of_le_of_lt ha hab))]
    linarith
  · have ha' : a < 0 := lt_of_not_ge ha
    rw [if_neg ha]
    by_cases hb : 0 ≤ b
    · rw [if_pos hb]
      have h1 : (1 : ℚ) < 1 - a := by linarith
      have h2 : 1 / (1 - a) < 1 := by
        rw [div_lt_one (by linarith)]
        exact h1
      linarith
    · have hb' : b < 0 := lt_of_not_ge hb
      rw [if_neg hb]
      have h2 : (0 : ℚ) < 1 - b := by linarith
      have h3 : 1 - b < 1 - a := by linarith
      exact one_div_lt_one_div_of_lt h2 h3

theorem sample_topk_one_greedy_witness :
    StrictMono eFun ∧ (∀ w, 0 < eFun w) ∧ (0 : ℚ) < 2 ∧ logitsW ≠ [] ∧
      ∃ x ∈ logitsW, sample eFun ⟨1, 1 / 2, 2⟩ (1 / 3) logitsW = x.1 ∧
        (∀ u ∈ logitsW, u.2 ≤ x.2) ∧
        ∀ u ∈ softmax eFun logitsW, u.2 ≤ eFun x.2 / (logitsW.map fun y => eFun y.2).sum :=
  ⟨eFun_strictMono, eFun_pos, by norm_num, by decide,
    sample_topk_one_greedy eFun eFun_strictMono eFun_pos (1 / 2) 2 (by norm_num) (1 / 3)
      logitsW (by decide)⟩
